import Mathlib

set_option maxHeartbeats 1000000

set_option maxRecDepth 4000

/-!
Verification of the book-assembly scripts: a Collector (combine.py) that
concatenates markdown chapter files, an Estimator (count.py) that strips
markdown markup and estimates page counts, and a Renderer (makebook.py)
that naturally sorts chapters and produces a PDF via external engines.
File contents are modelled as `List Char`; regex substitutions are modelled
as executable character-list transformations mirroring Python's `re.sub`
semantics (leftmost, non-greedy where the pattern says so, global).
-/

/-! ## Collector (combine.py) -/

/-! ## Estimator (count.py) -/

/-! ## Renderer (makebook.py) -/

/-- Python whitespace for `str.split()` and regex `\s` (ASCII range). -/
def pyIsSpace (c : Char) : Bool :=
  c = ' ' || c = '\t' || c = '\n' || c = '\r' || c = '\x0b' || c = '\x0c'

/-- Counts whitespace-delimited tokens; the Bool tracks being inside a token. -/
def countTokensAux : Bool → List Char → Nat
  | _, [] => 0
  | inTok, c :: cs =>
    if pyIsSpace c then countTokensAux false cs
    else (if inTok then 0 else 1) + countTokensAux true cs

/-- Number of whitespace-delimited tokens, as Python's `len(s.split())`. -/
def countTokens (cs : List Char) : Nat := countTokensAux false cs

/-- Splits a list at the first occurrence of `pat`: returns the part before
the occurrence and the part after it, or `none` when `pat` never occurs. -/
def splitFirst (pat : List Char) : List Char → Option (List Char × List Char)
  | [] => if pat.isPrefixOf ([] : List Char) then some ([], []) else none
  | c :: cs =>
    if pat.isPrefixOf (c :: cs) then some ([], (c :: cs).drop pat.length)
    else
      match splitFirst pat cs with
      | some (a, b) => some (c :: a, b)
      | none => none

/-- Whether `pat` occurs as a contiguous sublist of `cs`. -/
def hasSubB (pat cs : List Char) : Bool := (splitFirst pat cs).isSome

/-- One write performed by the combine loop: a chapter header line, a
chapter body, or the configurable separator. -/
inductive Piece where
  | header (name : List Char)
  | body (content : List Char)
  | sepP (s : List Char)

/-- The bytes each write emits; a header is `# <filename>` plus a blank line. -/
def renderPiece : Piece → List Char
  | .header n => '#' :: ' ' :: (n ++ ['\n', '\n'])
  | .body c => c
  | .sepP s => s

/-- The sequence of writes performed by `combine_markdown_files`' loop:
header then content for every file, with the separator after every file
except the last. -/
def combinePieces : List (List Char × List Char) → List Char → List Piece
  | [], _ => []
  | [f], _ => [.header f.1, .body f.2]
  | f :: g :: rest, s => .header f.1 :: .body f.2 :: .sepP s :: combinePieces (g :: rest) s

/-- The full content of the combined output file. -/
def combineOutput (files : List (List Char × List Char)) (sep : List Char) : List Char :=
  ((combinePieces files sep).map renderPiece).flatten

/-- The default chapter separator `'\n\n---\n\n'`. -/
def defaultSep : List Char := "\n\n---\n\n".data

def isHeaderB : Piece → Bool
  | .header _ => true
  | _ => false

def isSepB : Piece → Bool
  | .sepP _ => true
  | _ => false

/-- The block a single chapter contributes: header line, blank line, content. -/
def chapterBlock (f : List Char × List Char) : List Char :=
  '#' :: ' ' :: (f.1 ++ '\n' :: '\n' :: f.2)

/-- Joins blocks with a separator between consecutive blocks only. -/
def joinSep (s : List Char) : List (List Char) → List Char
  | [] => []
  | [x] => x
  | x :: y :: r => x ++ s ++ joinSep s (y :: r)

def c1files : List (List Char × List Char) :=
  [("a.md".data, "Hello".data), ("b.md".data, "World".data)]

/-- The message printed when no chapter files are found. -/
def noFilesMsg (dir : List Char) : List Char := "No .md files found in ".data ++ dir

/-- Outcome of a Collector run: either an early return with only a console
message and no output file, or a written combined file. -/
inductive CombineResult where
  | noFiles (msg : List Char)
  | wrote (output : List Char)

/-- Top-level behaviour of `combine_markdown_files`: with no matching files
it prints a message and returns; otherwise it writes the combined file. -/
def combine_markdown_files (dir : List Char) (files : List (List Char × List Char))
    (sep : List Char) : CombineResult :=
  match files with
  | [] => .noFiles (noFilesMsg dir)
  | _ :: _ => .wrote (combineOutput files sep)

/-- Model of Python's `readlines`: splits after every newline, keeping the
newline at the end of each line. -/
def readlinesModel : List Char → List (List Char)
  | [] => []
  | c :: cs =>
    match readlinesModel cs with
    | [] => [[c]]
    | l :: ls => if c = '\n' then [c] :: l :: ls else (c :: l) :: ls

/-- The word total the Collector reports after writing: it re-reads the
combined output file and sums `len(line.split())` over its lines. -/
def reportedWords (files : List (List Char × List Char)) : Nat :=
  ((readlinesModel (combineOutput files defaultSep)).map countTokens).sum

/-- The token state after scanning a list: inside a token iff the last
character exists and is not whitespace. -/
def tokState (b : Bool) (a : List Char) : Bool :=
  a.foldl (fun _ c => !(pyIsSpace c)) b

/-- Token sum over the lines of a file, the first line counted from state `b`. -/
def linesTokens (b : Bool) (cs : List Char) : Nat :=
  match readlinesModel cs with
  | [] => 0
  | l :: ls => countTokensAux b l + (ls.map countTokens).sum

def c9files : List (List Char × List Char) := [("a.md".data, "one two".data), ("b.md".data, "three".data)]

/-- The backtick character (code point 96). -/
def btChar : Char := Char.ofNat 96

/-- Triple backtick, the fenced-code delimiter. -/
def bt3 : List Char := [btChar, btChar, btChar]

/-- Regex `d([^d]+)d` substituted globally: a delimiter, a non-empty run free
of the delimiter, and the next delimiter. `keep` tells whether the inner text
replaces the match (emphasis) or the whole match is deleted (inline code).
Fuel decreases once per step; callers pass the list length, which suffices. -/
def genSub1F (d : Char) (keep : Bool) : Nat → List Char → List Char
  | 0, cs => cs
  | _ + 1, [] => []
  | n + 1, c :: cs =>
    if c = d then
      match splitFirst [d] cs with
      | some (a, b) =>
        if a = [] then c :: genSub1F d keep n cs
        else (if keep then a else []) ++ genSub1F d keep n b
      | none => c :: genSub1F d keep n cs
    else c :: genSub1F d keep n cs

/-- Regex `dd([^d]+)dd` substituted globally by the inner text. -/
def genSub2F (d : Char) : Nat → List Char → List Char
  | 0, cs => cs
  | _ + 1, [] => []
  | n + 1, c :: cs =>
    if [d, d].isPrefixOf (c :: cs) then
      match splitFirst [d] (cs.drop 1) with
      | some (a, b) =>
        if a = [] then c :: genSub2F d n cs
        else if b.head? = some d then a ++ genSub2F d n (b.drop 1)
        else c :: genSub2F d n cs
      | none => c :: genSub2F d n cs
    else c :: genSub2F d n cs

/-- Regex for fenced code blocks (non-greedy, DOTALL), substituted globally:
removes everything from a triple backtick to the nearest following one. -/
def subFencedF : Nat → List Char → List Char
  | 0, cs => cs
  | _ + 1, [] => []
  | n + 1, c :: cs =>
    if bt3.isPrefixOf (c :: cs) then
      match splitFirst bt3 (cs.drop 2) with
      | some (_, rest) => subFencedF n rest
      | none => c :: subFencedF n cs
    else c :: subFencedF n cs

/-- Opening front-matter delimiter `---` on its own first line. -/
def fmOpen : List Char := "---\n".data

/-- Closing front-matter delimiter line. -/
def fmClose : List Char := "\n---\n".data

/-- Regex `^---\n.*?\n---\n` (DOTALL, no MULTILINE): strips YAML front
matter only when it is anchored at the very start of the content. -/
def subFront (cs : List Char) : List Char :=
  if fmOpen.isPrefixOf cs then
    match splitFirst fmClose (cs.drop 4) with
    | some (_, rest) => rest
    | none => cs
  else cs

/-- Regex `#+\s` substituted globally: deletes each maximal run of `#`
together with the single following whitespace character, when one follows. -/
def subHeadsF : Nat → List Char → List Char
  | 0, cs => cs
  | _ + 1, [] => []
  | n + 1, c :: cs =>
    if c = '#' then
      match cs.dropWhile (fun x => x = '#') with
      | [] => c :: cs
      | d :: ds =>
        if pyIsSpace d then subHeadsF n ds
        else (c :: cs.takeWhile (fun x => x = '#')) ++ d :: subHeadsF n ds
    else c :: subHeadsF n cs

/-- Regex for links, substituted globally by the link text. -/
def subLinkF : Nat → List Char → List Char
  | 0, cs => cs
  | _ + 1, [] => []
  | n + 1, c :: cs =>
    if c = '[' then
      match splitFirst [']'] cs with
      | some (a, b) =>
        if a = [] then c :: subLinkF n cs
        else
          if b.head? = some '(' then
            match splitFirst [')'] (b.drop 1) with
            | some (u, v) =>
              if u = [] then c :: subLinkF n cs
              else a ++ subLinkF n v
            | none => c :: subLinkF n cs
          else c :: subLinkF n cs
      | none => c :: subLinkF n cs
    else c :: subLinkF n cs

/-- Regex for images (alt text may be empty), substituted globally by the
empty string; it runs after the link substitution, as in the source. -/
def subImageF : Nat → List Char → List Char
  | 0, cs => cs
  | _ + 1, [] => []
  | n + 1, c :: cs =>
    if c = '!' ∧ cs.head? = some '[' then
      match splitFirst [']'] (cs.drop 1) with
      | some (_, b) =>
        if b.head? = some '(' then
          match splitFirst [')'] (b.drop 1) with
          | some (u, v) =>
            if u = [] then c :: subImageF n cs
            else subImageF n v
          | none => c :: subImageF n cs
        else c :: subImageF n cs
      | none => c :: subImageF n cs
    else c :: subImageF n cs

def subFenced (cs : List Char) : List Char := subFencedF cs.length cs

def subInline (cs : List Char) : List Char := genSub1F btChar false cs.length cs

def subBold (cs : List Char) : List Char := genSub2F '*' cs.length cs

def subStar (cs : List Char) : List Char := genSub1F '*' true cs.length cs

def subUnder2 (cs : List Char) : List Char := genSub2F '_' cs.length cs

def subUnder1 (cs : List Char) : List Char := genSub1F '_' true cs.length cs

def subHeads (cs : List Char) : List Char := subHeadsF cs.length cs

def subLink (cs : List Char) : List Char := subLinkF cs.length cs

def subImage (cs : List Char) : List Char := subImageF cs.length cs

/-- `count_words_in_markdown`: strips, in source order, fenced code blocks,
inline code, YAML front matter, heading markers, `**` `*` `__` `_` emphasis,
links (keeping the text) and images, then counts whitespace tokens. -/
def count_words_in_markdown (content : List Char) : Nat :=
  countTokens (subImage (subLink (subUnder1 (subUnder2 (subStar (subBold
    (subHeads (subFront (subInline (subFenced content))))))))))

/-- Outcome of an Estimator run: an early return with only a console message
and no table, or the printed table with per-file rows and the totals row. -/
inductive EstimateResult where
  | noFiles (msg : List Char)
  | table (rows : List (List Char × Nat × ℚ)) (totalWords : Nat) (totalPages : ℚ)

/-- Top-level behaviour of `estimate_pages`: per-file rows hold the filename,
its word count and the exact quotient words ÷ words-per-page; the totals row
is the accumulated word count and total words ÷ words-per-page. -/
def estimate_pages (dir : List Char) (files : List (List Char × List Char))
    (words_per_page : ℚ) : EstimateResult :=
  match files with
  | [] => .noFiles (noFilesMsg dir)
  | _ :: _ =>
    EstimateResult.table
      (files.map (fun f =>
        (f.1, count_words_in_markdown f.2, (count_words_in_markdown f.2 : ℚ) / words_per_page)))
      ((files.map (fun f => count_words_in_markdown f.2)).sum)
      (((files.map (fun f => count_words_in_markdown f.2)).sum : ℚ) / words_per_page)

/-- Python `pathlib.Path.stem`: drops the final `.suffix` when the last dot
is neither the first nor the last character of the name. -/
def pyStem (name : List Char) : List Char :=
  match splitFirst ['.'] name.reverse with
  | some (a, b) => if a ≠ [] ∧ b ≠ [] then b.reverse else name
  | none => name

/-- Model of `re.split(r'(\d+)', s)`: alternating runs, starting with a
(possibly empty) non-digit run, keeping the captured digit runs. -/
def splitDigitsF : Nat → List Char → List (List Char)
  | 0, cs => [cs]
  | n + 1, cs =>
    match cs.dropWhile (fun c => !c.isDigit) with
    | [] => [cs.takeWhile (fun c => !c.isDigit)]
    | r =>
      cs.takeWhile (fun c => !c.isDigit) :: r.takeWhile Char.isDigit ::
        splitDigitsF n (r.dropWhile Char.isDigit)

def splitDigits (cs : List Char) : List (List Char) := splitDigitsF cs.length cs

/-- Python `int(p)` for a digit run. -/
def digitsToNat (p : List Char) : Nat :=
  p.foldl (fun n c => n * 10 + (c.toNat - 48)) 0

/-- One component of the natural-sort key: `int(p) if p.isdigit() else p.lower()`. -/
def natKeyElem (p : List Char) : Sum (List Char) Nat :=
  if p ≠ [] ∧ p.all Char.isDigit then Sum.inr (digitsToNat p)
  else Sum.inl (p.map Char.toLower)

/-- `natural_sort_key`: split the filename stem into digit and non-digit
runs; digit runs become integers, other runs lowercased strings. -/
def natural_sort_key (name : List Char) : List (Sum (List Char) Nat) :=
  (splitDigits (pyStem name)).map natKeyElem

/-- Three-way comparison on naturals. -/
def cmpNat (a b : Nat) : Ordering :=
  if a < b then .lt else if b < a then .gt else .eq

/-- Three-way comparison on characters by code point. -/
def cmpChar (a b : Char) : Ordering := cmpNat a.toNat b.toNat

/-- Lexicographic comparison of lists from an element comparison; a strict
prefix is smaller, as in Python sequence comparison. -/
def cmpLex (f : α → α → Ordering) : List α → List α → Ordering
  | [], [] => .eq
  | [], _ :: _ => .lt
  | _ :: _, [] => .gt
  | a :: as, b :: bs =>
    match f a b with
    | .eq => cmpLex f as bs
    | o => o

/-- Python string comparison (code-point lexicographic). -/
def cmpStr (a b : List Char) : Ordering := cmpLex cmpChar a b

/-- Python comparison of two key components, which raises `TypeError`
(modelled as `none`) when an integer meets a string. -/
def cmpElemQ : Sum (List Char) Nat → Sum (List Char) Nat → Option Ordering
  | .inl a, .inl b => some (cmpStr a b)
  | .inr a, .inr b => some (cmpNat a b)
  | _, _ => none

/-- Comparison of two natural-sort keys as Python compares lists, with
`none` when any position compares an integer with a string. -/
def cmpKeyQ : List (Sum (List Char) Nat) → List (Sum (List Char) Nat) → Option Ordering
  | [], [] => some .eq
  | [], _ :: _ => some .lt
  | _ :: _, [] => some .gt
  | a :: as, b :: bs =>
    match cmpElemQ a b with
    | none => none
    | some .eq => cmpKeyQ as bs
    | some o => some o

/-- Total comparison of key components; mixed components are ordered with
strings before integers, a convention never exercised by real keys. -/
def cmpElemT : Sum (List Char) Nat → Sum (List Char) Nat → Ordering
  | .inl a, .inl b => cmpStr a b
  | .inr a, .inr b => cmpNat a b
  | .inl _, .inr _ => .lt
  | .inr _, .inl _ => .gt

/-- Total comparison of natural-sort keys. -/
def cmpKeyT (a b : List (Sum (List Char) Nat)) : Ordering := cmpLex cmpElemT a b

/-- The sort relation `key(a) <= key(b)` used to order chapter files. -/
def keyLe (a b : List Char) : Bool :=
  match cmpKeyT (natural_sort_key a) (natural_sort_key b) with
  | .gt => false
  | _ => true

/-- The sort relation as a proposition. -/
def keyLeR (a b : List Char) : Prop := keyLe a b = true

instance : DecidableRel keyLeR := fun a b => inferInstanceAs (Decidable (keyLe a b = true))

/-- `get_chapter_files`, on the list of matched filenames: a stable sort by
the natural-sort key. -/
def get_chapter_files (files : List (List Char)) : List (List Char) :=
  List.insertionSort keyLeR files

/-- Python `str.title()`: a letter is uppercased when the previous character
is not a letter, lowercased otherwise; the Bool tracks the previous state. -/
def pyTitleAux : Bool → List Char → List Char
  | _, [] => []
  | prev, c :: cs =>
    if c.isAlpha then
      (if prev then c.toLower else c.toUpper) :: pyTitleAux true cs
    else c :: pyTitleAux false cs

def pyTitle (cs : List Char) : List Char := pyTitleAux false cs

/-- The synthesized chapter title: filename stem with `_` and `-` replaced
by spaces, then title-cased. -/
def chapterTitle (stem : List Char) : List Char :=
  pyTitle (stem.map (fun c => if c = '_' ∨ c = '-' then ' ' else c))

/-- The marker whose absence triggers heading synthesis. -/
def h1Tag : List Char := "<h1>".data

/-- The heading the Renderer synthesizes for chapter `i`. -/
def synthHeading (i : Nat) (stem : List Char) : List Char :=
  "<h1>Chapter ".data ++ (Nat.repr i).data ++ ": ".data ++ chapterTitle stem ++ "</h1>\n".data

/-- The per-chapter step of `markdown_to_html`: when the converted fragment
has no `<h1>` marker, prefix the synthesized heading; otherwise keep it. -/
def addChapterHeading (i : Nat) (stem html : List Char) : List Char :=
  if hasSubB h1Tag html then html else synthHeading i stem ++ html

/-- `markdown_to_html`: convert each file, synthesize headings for files
whose fragment lacks `<h1>`, and join the fragments with blank lines;
chapters are numbered from 1 in sorted order. -/
def markdown_to_html (convert : List Char → List Char)
    (files : List (List Char × List Char)) : List Char :=
  joinSep ("\n\n".data)
    ((files.enumFrom 1).map (fun p => addChapterHeading p.1 (pyStem p.2.1) (convert p.2.2)))

/-- Modelled from the spec: the external markdown-to-HTML engine is a
third-party library not in the repository. Per the spec's end-to-end
scenario it renders a leading `# ` line as an `<h1>` element followed by a
paragraph, and a plain text chunk as a paragraph. -/
def mdEngine (content : List Char) : List Char :=
  if ("# ".data).isPrefixOf content then
    match splitFirst ['\n'] (content.drop 2) with
    | some (t, rest) => "<h1>".data ++ t ++ "</h1>\n<p>".data ++ rest ++ "</p>".data
    | none => "<h1>".data ++ content.drop 2 ++ "</h1>".data
  else "<p>".data ++ content ++ "</p>".data

/-- Outcome of `create_pdf`: a nonzero exit, or a PDF written at the given
path from the assembled HTML. -/
inductive RenderResult where
  | exit (code : Nat)
  | pdf (path : List Char) (html : List Char)

/-- Top-level behaviour of `create_pdf`: exit 1 when no chapter files are
found, otherwise write the PDF rendered from the concatenated HTML. -/
def create_pdf (convert : List Char → List Char) (files : List (List Char × List Char))
    (output_pdf : List Char) : RenderResult :=
  match files with
  | [] => .exit 1
  | _ :: _ => .pdf output_pdf (markdown_to_html convert files)

/-- Outcome of the Renderer CLI `main`: usage exit, invalid-directory exit,
or a run of `create_pdf` on the resolved output path. -/
inductive MainResult where
  | usageExit (code : Nat)
  | dirErrorExit (code : Nat)
  | ran (outputPath : List Char) (r : RenderResult)

/-- Top-level behaviour of `main`: `argv` includes the program name; with
fewer than two user arguments print usage and exit 1; with a non-directory
input exit 1; otherwise force a `.pdf` suffix and run `create_pdf`. -/
def pyMain (argv : List (List Char)) (isDir : List Char → Bool)
    (chapters : List Char → List (List Char × List Char))
    (convert : List Char → List Char) : MainResult :=
  match argv with
  | _ :: input_dir :: output_pdf :: _ =>
    if isDir input_dir then
      MainResult.ran
        (if (".pdf".data).isSuffixOf output_pdf then output_pdf else output_pdf ++ ".pdf".data)
        (create_pdf convert (chapters input_dir)
          (if (".pdf".data).isSuffixOf output_pdf then output_pdf else output_pdf ++ ".pdf".data))
    else MainResult.dirErrorExit 1
  | _ => MainResult.usageExit 1

def c8files : List (List Char × List Char) := [("a.md".data, "one two three".data)]

/-- Alternation invariant on chunks produced by the digit split: starting
from `false`, even positions are digit-free runs, odd positions non-empty
digit runs. -/
def AltChunks : Bool → List (List Char) → Prop
  | _, [] => True
  | false, p :: ps => (∀ c ∈ p, c.isDigit = false) ∧ AltChunks true ps
  | true, p :: ps => p ≠ [] ∧ (∀ c ∈ p, c.isDigit = true) ∧ AltChunks false ps

/-- Alternation of key components: starting from `false`, even positions
are strings, odd positions integers. -/
def AltK : Bool → List (Sum (List Char) Nat) → Prop
  | _, [] => True
  | false, x :: xs => (∃ s, x = Sum.inl s) ∧ AltK true xs
  | true, x :: xs => (∃ k, x = Sum.inr k) ∧ AltK false xs

/-- C1: for every non-empty list of N chapter files the Collector performs
exactly N header writes of the form `# <filename>` followed by a blank line,
exactly N-1 separator writes, and the output file is exactly the chapter
blocks (header line, blank line, original content byte-for-byte) joined with
the separator between consecutive chapters only, never after the last. -/
theorem collector_headers_separators (files : List (List Char × List Char))
    (sep : List Char) (h : files ≠ []) :
    (combinePieces files sep).countP isHeaderB = files.length ∧
    (combinePieces files sep).countP isSepB = files.length - 1 ∧
    combineOutput files sep = joinSep sep (files.map chapterBlock) := by
  clear h
  induction files with
  | nil => simp [combinePieces, combineOutput, joinSep]
  | cons f rest ih =>
    cases rest with
    | nil =>
      refine ⟨?_, ?_, ?_⟩
      · simp [combinePieces, List.countP_cons, isHeaderB]
      · simp [combinePieces, List.countP_cons, isSepB]
      · simp [combinePieces, combineOutput, joinSep, chapterBlock, renderPiece]
    | cons g rest2 =>
      obtain ⟨ih1, ih2, ih3⟩ := ih
      refine ⟨?_, ?_, ?_⟩
      · simpa [combinePieces, List.countP_cons, isHeaderB] using ih1
      · simpa [combinePieces, List.countP_cons, isSepB] using ih2
      · have hout : combineOutput (f :: g :: rest2) sep =
            renderPiece (.header f.1) ++ f.2 ++ sep ++ combineOutput (g :: rest2) sep := by
          simp [combineOutput, combinePieces, renderPiece]
        rw [hout, ih3]
        simp [joinSep, chapterBlock, renderPiece]

theorem collector_headers_separators_witness :
    c1files ≠ [] ∧
    ((combinePieces c1files defaultSep).countP isHeaderB = c1files.length ∧
     (combinePieces c1files defaultSep).countP isSepB = c1files.length - 1 ∧
     combineOutput c1files defaultSep = joinSep defaultSep (c1files.map chapterBlock)) :=
  ⟨by decide, collector_headers_separators c1files defaultSep (by decide)⟩

theorem countTokensAux_append (a : List Char) : ∀ (b : Bool) (x : List Char),
    countTokensAux b (a ++ x) = countTokensAux b a + countTokensAux (tokState b a) x := by
  induction a with
  | nil => intro b x; simp [countTokensAux, tokState]
  | cons c a ih =>
    intro b x
    by_cases hc : pyIsSpace c = true
    · have h1 : countTokensAux b (c :: a ++ x) = countTokensAux false (a ++ x) := by
        simp [countTokensAux, hc]
      have h2 : countTokensAux b (c :: a) = countTokensAux false a := by
        simp [countTokensAux, hc]
      have h3 : tokState b (c :: a) = tokState false a := by
        simp [tokState, List.foldl_cons, hc]
      rw [h1, h2, h3, ih false x]
    · have h1 : countTokensAux b (c :: a ++ x) =
          (if b then 0 else 1) + countTokensAux true (a ++ x) := by
        simp [countTokensAux, hc]
      have h2 : countTokensAux b (c :: a) = (if b then 0 else 1) + countTokensAux true a := by
        simp [countTokensAux, hc]
      have h3 : tokState b (c :: a) = tokState true a := by
        simp [tokState, List.foldl_cons, hc]
      rw [h1, h2, h3, ih true x]
      omega

theorem countTokensAux_cons (b : Bool) (c : Char) (z : List Char) :
    countTokensAux b (c :: z) = (if pyIsSpace c then 0 else if b then 0 else 1) +
      countTokensAux (if pyIsSpace c then false else true) z := by
  by_cases hc : pyIsSpace c = true <;> simp [countTokensAux, hc]

theorem readlinesModel_ne_nil (c : Char) (cs : List Char) : readlinesModel (c :: cs) ≠ [] := by
  cases hr : readlinesModel cs with
  | nil => simp [readlinesModel, hr]
  | cons l ls => by_cases hc : c = '\n' <;> simp [readlinesModel, hr, hc]

theorem linesTokens_eq : ∀ (cs : List Char) (b : Bool), linesTokens b cs = countTokensAux b cs := by
  intro cs
  induction cs with
  | nil => intro b; rfl
  | cons c cs ih =>
    intro b
    cases hr : readlinesModel cs with
    | nil =>
      have hcs : cs = [] := by
        cases cs with
        | nil => rfl
        | cons d ds => exact absurd hr (readlinesModel_ne_nil d ds)
      subst hcs
      by_cases hc : pyIsSpace c = true <;>
        simp [linesTokens, readlinesModel, countTokensAux, hc]
    | cons l ls =>
      by_cases hc : c = '\n'
      · subst hc
        have e1 : readlinesModel ('\n' :: cs) = ['\n'] :: l :: ls := by
          simp [readlinesModel, hr]
      
        have e3 : linesTokens false cs = countTokensAux false l + (ls.map countTokens).sum := by
          simp [linesTokens, hr, countTokens]
        have e2 : linesTokens b ('\n' :: cs) = countTokensAux b ['\n'] +
            (countTokens l + (ls.map countTokens).sum) := by
          simp [linesTokens, e1]
        rw [e2, countTokensAux_cons b '\n' cs]
        have h0 : countTokensAux b ['\n'] = 0 := by
          cases b <;> simp [countTokensAux, pyIsSpace]
        rw [h0]
        have : pyIsSpace '\n' = true := by decide
        rw [if_pos this, if_pos this, ← ih false, e3, countTokens]
      · have e1 : readlinesModel (c :: cs) = (c :: l) :: ls := by
          simp [readlinesModel, hr, hc]
        have e2 : linesTokens b (c :: cs) = countTokensAux b (c :: l) +
            (ls.map countTokens).sum := by
          simp [linesTokens, e1]
        rw [e2, countTokensAux_cons b c l, countTokensAux_cons b c cs]
        by_cases hs : pyIsSpace c = true
        · rw [if_pos hs, if_pos hs, ← ih false]
          have e3 : linesTokens false cs = countTokensAux false l + (ls.map countTokens).sum := by
            simp [linesTokens, hr, countTokens]
          rw [e3]
          omega
        · rw [if_neg hs, if_neg hs, ← ih true]
          have e3 : linesTokens true cs = countTokensAux true l + (ls.map countTokens).sum := by
            simp [linesTokens, hr, countTokens]
          rw [e3]
          omega

theorem sum_readlines_tokens (cs : List Char) :
    ((readlinesModel cs).map countTokens).sum = countTokens cs := by
  have h := linesTokens_eq cs false
  cases hr : readlinesModel cs with
  | nil => simp [linesTokens, hr] at h; simpa [hr, countTokens] using h
  | cons l ls =>
    simp [linesTokens, hr] at h
    simpa [hr, countTokens] using h

theorem tokState_header (n : List Char) (b : Bool) :
    tokState b ('#' :: ' ' :: (n ++ ['\n', '\n'])) = false := by
  simp only [tokState, List.foldl_cons, List.foldl_append, List.foldl_nil]
  decide

theorem countTokensAux_defaultSep (b : Bool) : countTokensAux b defaultSep = 1 := by
  cases b <;> decide

theorem tokState_defaultSep (b : Bool) : tokState b defaultSep = false := by
  cases b <;> decide

theorem combineOutput_tokens (files : List (List Char × List Char)) :
    countTokens (combineOutput files defaultSep) =
      (files.map (fun f => countTokens (renderPiece (Piece.header f.1)))).sum +
      (files.map (fun f => countTokens f.2)).sum + (files.length - 1) := by
  induction files with
  | nil => simp [combineOutput, combinePieces, countTokens, countTokensAux]
  | cons f rest ih =>
    cases rest with
    | nil =>
      have hout : combineOutput [f] defaultSep = renderPiece (.header f.1) ++ f.2 := by
        simp [combineOutput, combinePieces, renderPiece]
      rw [countTokens, hout, countTokensAux_append]
      have hst : tokState false (renderPiece (Piece.header f.1)) = false := by
        simpa [renderPiece] using tokState_header f.1 false
      rw [hst]
      simp [countTokens]
    | cons g rest2 =>
      have hout : combineOutput (f :: g :: rest2) defaultSep =
          renderPiece (.header f.1) ++ (f.2 ++ (defaultSep ++ combineOutput (g :: rest2) defaultSep)) := by
        simp [combineOutput, combinePieces, renderPiece]
      rw [countTokens, hout, countTokensAux_append]
      have hst : tokState false (renderPiece (Piece.header f.1)) = false := by
        simpa [renderPiece] using tokState_header f.1 false
      rw [hst, countTokensAux_append, countTokensAux_append,
        countTokensAux_defaultSep, tokState_defaultSep]
      have hrest := ih
      rw [countTokens] at hrest
      rw [hrest]
      simp only [List.map_cons, List.sum_cons, List.length_cons, countTokens]
      omega

/-- C9: the word total reported by the Collector's post-write summary is
computed by re-reading the combined output file, so for every non-empty
input it equals the chapters' own token counts plus the tokens of every
synthesized `# <filename>` header line plus one token per separator
(`---`), and hence strictly exceeds the sum of the chapters' own
whitespace-delimited word counts. -/
theorem collector_report_includes_markup (files : List (List Char × List Char))
    (h : files ≠ []) :
    reportedWords files =
      (files.map (fun f => countTokens (renderPiece (Piece.header f.1)))).sum +
      (files.map (fun f => countTokens f.2)).sum + (files.length - 1) ∧
    (files.map (fun f => countTokens f.2)).sum < reportedWords files := by
  have hr : reportedWords files = countTokens (combineOutput files defaultSep) :=
    sum_readlines_tokens _
  refine ⟨by rw [hr]; exact combineOutput_tokens files, ?_⟩
  rw [hr, combineOutput_tokens files]
  cases files with
  | nil => exact absurd rfl h
  | cons f rest =>
    have hh : pyIsSpace '#' = false := by decide
    have hpos : 0 < countTokens (renderPiece (Piece.header f.1)) := by
      rw [renderPiece, countTokens, countTokensAux_cons, hh]
      simp
    simp only [List.map_cons, List.sum_cons]
    omega

theorem collector_report_includes_markup_witness :
    c9files ≠ [] ∧
    (reportedWords c9files =
      (c9files.map (fun f => countTokens (renderPiece (Piece.header f.1)))).sum +
      (c9files.map (fun f => countTokens f.2)).sum + (c9files.length - 1) ∧
    (c9files.map (fun f => countTokens f.2)).sum < reportedWords c9files) :=
  ⟨by decide, collector_report_includes_markup c9files (by decide)⟩

/-- C5: with zero matching chapter files the Collector and the Estimator
print a console message, create no output file and print no table, and
return normally; the Renderer instead exits with code 1. -/
theorem empty_input_behavior (dir sep : List Char) (wpp : ℚ)
    (convert : List Char → List Char) (out : List Char) :
    combine_markdown_files dir [] sep = CombineResult.noFiles (noFilesMsg dir) ∧
    estimate_pages dir [] wpp = EstimateResult.noFiles (noFilesMsg dir) ∧
    create_pdf convert [] out = RenderResult.exit 1 :=
  ⟨rfl, rfl, rfl⟩

/-- C6: the Renderer CLI prints usage and exits 1 when fewer than two user
arguments are given (argv counts the program name); exits 1 when the input
directory does not exist; exits 1 when no chapter files are found; and
appends `.pdf` to an output filename that does not already end in it. -/
theorem renderer_cli_behavior :
    (∀ (argv : List (List Char)) (isDir : List Char → Bool)
       (chapters : List Char → List (List Char × List Char))
       (convert : List Char → List Char),
       argv.length < 3 → pyMain argv isDir chapters convert = MainResult.usageExit 1) ∧
    (∀ (p i o : List Char) (r : List (List Char)) (isDir : List Char → Bool)
       (chapters : List Char → List (List Char × List Char))
       (convert : List Char → List Char),
       isDir i = false →
       pyMain (p :: i :: o :: r) isDir chapters convert = MainResult.dirErrorExit 1) ∧
    (∀ (p i o : List Char) (r : List (List Char)) (isDir : List Char → Bool)
       (chapters : List Char → List (List Char × List Char))
       (convert : List Char → List Char),
       isDir i = true → chapters i = [] →
       ∃ out, pyMain (p :: i :: o :: r) isDir chapters convert =
         MainResult.ran out (RenderResult.exit 1)) ∧
    (∀ (p i o : List Char) (r : List (List Char)) (isDir : List Char → Bool)
       (chapters : List Char → List (List Char × List Char))
       (convert : List Char → List Char),
       isDir i = true → (".pdf".data).isSuffixOf o = false →
       pyMain (p :: i :: o :: r) isDir chapters convert =
         MainResult.ran (o ++ ".pdf".data)
           (create_pdf convert (chapters i) (o ++ ".pdf".data))) := by
  refine ⟨?_, ?_, ?_, ?_⟩
  · intro argv isDir chapters convert h
    cases argv with
    | nil => rfl
    | cons a t =>
      cases t with
      | nil => rfl
      | cons b t2 =>
        cases t2 with
        | nil => rfl
        | cons c t3 => exfalso; simp [List.length_cons] at h; omega
  · intro p i o r isDir chapters convert h
    simp [pyMain, h]
  · intro p i o r isDir chapters convert h1 h2
    refine ⟨if (".pdf".data).isSuffixOf o then o else o ++ ".pdf".data, ?_⟩
    simp only [pyMain, h1, if_true]
    rw [h2]
    rfl
  · intro p i o r isDir chapters convert h1 h2
    simp [pyMain, h1, h2]

theorem renderer_cli_behavior_witness :
    (([] : List (List Char)).length < 3 ∧
      pyMain [] (fun _ => true) (fun _ => []) (fun c => c) = MainResult.usageExit 1) ∧
    ((fun _ : List Char => false) ("d".data) = false ∧
      pyMain ["m".data, "d".data, "o".data] (fun _ => false) (fun _ => []) (fun c => c) =
        MainResult.dirErrorExit 1) ∧
    (∃ out, pyMain ["m".data, "d".data, "o".data] (fun _ => true) (fun _ => []) (fun c => c) =
      MainResult.ran out (RenderResult.exit 1)) ∧
    ((".pdf".data).isSuffixOf ("o".data) = false ∧
      pyMain ["m".data, "d".data, "o".data] (fun _ => true)
          (fun _ => [("a.md".data, "x".data)]) (fun c => c) =
        MainResult.ran ("o".data ++ ".pdf".data)
          (create_pdf (fun c => c) [("a.md".data, "x".data)] ("o".data ++ ".pdf".data))) :=
  ⟨⟨by decide, renderer_cli_behavior.1 [] _ _ _ (by decide)⟩,
   ⟨rfl, renderer_cli_behavior.2.1 _ _ _ _ _ _ _ rfl⟩,
   renderer_cli_behavior.2.2.1 _ _ _ _ _ _ _ rfl rfl,
   by
     have h := renderer_cli_behavior.2.2.2 ("m".data) ("d".data) ("o".data) []
       (fun _ => true) (fun _ => [("a.md".data, "x".data)]) (fun c => c) rfl (by decide)
     exact ⟨by decide, h⟩⟩

/-- C3: a chapter fragment containing no `<h1>` marker is prefixed with the
synthesized heading `Chapter i: Title` built from the 1-based sorted
position and the title-cased stem; a fragment that has one is unmodified;
and on the spec's two-file scenario the assembled HTML keeps the heading
`Intro` unchanged and synthesizes `Chapter 2: 02 End` before `Goodbye.`. -/
theorem renderer_heading_synthesis :
    (∀ (i : Nat) (stem html : List Char),
      (hasSubB h1Tag html = false →
        addChapterHeading i stem html = synthHeading i stem ++ html) ∧
      (hasSubB h1Tag html = true → addChapterHeading i stem html = html)) ∧
    markdown_to_html mdEngine
      [("01-intro.md".data, "# Intro\nHello world.".data),
       ("02-end.md".data, "Goodbye.".data)] =
      ("<h1>Intro</h1>\n<p>Hello world.</p>\n\n<h1>Chapter 2: 02 End</h1>\n<p>Goodbye.</p>").data := by
  refine ⟨?_, by decide⟩
  intro i stem html
  constructor
  · intro hh; simp [addChapterHeading, hh]
  · intro hh; simp [addChapterHeading, hh]

theorem renderer_heading_synthesis_witness :
    hasSubB h1Tag ("<p>x</p>".data) = false ∧
    addChapterHeading 1 ("ch".data) ("<p>x</p>".data) =
      synthHeading 1 ("ch".data) ++ "<p>x</p>".data :=
  ⟨by decide, (renderer_heading_synthesis.1 1 ("ch".data) ("<p>x</p>".data)).1 (by decide)⟩

theorem list_sum_div (l : List ℚ) (r : ℚ) :
    l.sum / r = (l.map (fun x => x / r)).sum := by
  induction l with
  | nil => simp
  | cons x xs ih => simp [List.sum_cons, add_div, ih]

/-- C8: the per-file page estimate is the exact quotient word count ÷
words-per-page with no per-file rounding, the totals row is total words ÷
words-per-page, and that total equals the sum of the per-file estimates. -/
theorem estimator_exact_quotients (dir : List Char)
    (files : List (List Char × List Char)) (wpp : ℚ) (h : files ≠ []) :
    estimate_pages dir files wpp =
      EstimateResult.table
        (files.map (fun f =>
          (f.1, count_words_in_markdown f.2, (count_words_in_markdown f.2 : ℚ) / wpp)))
        ((files.map (fun f => count_words_in_markdown f.2)).sum)
        (((files.map (fun f => count_words_in_markdown f.2)).sum : ℚ) / wpp) ∧
    (((files.map (fun f => count_words_in_markdown f.2)).sum : ℚ) / wpp) =
      (files.map (fun f => (count_words_in_markdown f.2 : ℚ) / wpp)).sum := by
  constructor
  · cases files with
    | nil => exact absurd rfl h
    | cons f r => rfl
  · rw [Nat.cast_list_sum, list_sum_div, List.map_map, List.map_map]
    rfl

theorem estimator_exact_quotients_witness :
    c8files ≠ [] ∧
    (estimate_pages ("d".data) c8files 250 =
      EstimateResult.table
        (c8files.map (fun f =>
          (f.1, count_words_in_markdown f.2, (count_words_in_markdown f.2 : ℚ) / 250)))
        ((c8files.map (fun f => count_words_in_markdown f.2)).sum)
        (((c8files.map (fun f => count_words_in_markdown f.2)).sum : ℚ) / 250) ∧
    (((c8files.map (fun f => count_words_in_markdown f.2)).sum : ℚ) / 250) =
      (c8files.map (fun f => (count_words_in_markdown f.2 : ℚ) / 250)).sum) :=
  ⟨by decide, estimator_exact_quotients ("d".data) c8files 250 (by decide)⟩

theorem hasSubB_cons (pat : List Char) (c : Char) (cs : List Char) :
    hasSubB pat (c :: cs) = (pat.isPrefixOf (c :: cs) || hasSubB pat cs) := by
  by_cases hp : pat.isPrefixOf (c :: cs)
  · simp [hasSubB, splitFirst, hp]
  · cases hs : splitFirst pat cs with
    | none => simp [hasSubB, splitFirst, hp, hs]
    | some ab =>
      cases ab with
      | mk a b => simp [hasSubB, splitFirst, hp, hs]

theorem hasSubB_cons_false (pat : List Char) (c : Char) (cs : List Char)
    (h : hasSubB pat (c :: cs) = false) :
    pat.isPrefixOf (c :: cs) = false ∧ hasSubB pat cs = false := by
  rw [hasSubB_cons] at h
  exact ⟨by cases hp : pat.isPrefixOf (c :: cs) <;> simp_all,
         by cases hq : hasSubB pat cs <;> simp_all⟩

theorem isPrefixOf_bt3_swap (c : Char) (x : List Char) :
    bt3.isPrefixOf (c :: (x ++ bt3)) = bt3.isPrefixOf (c :: (x ++ [btChar, btChar])) := by
  cases x with
  | nil => simp [bt3, List.isPrefixOf]
  | cons d y =>
    cases y with
    | nil => simp [bt3, List.isPrefixOf]
    | cons e z => simp [bt3, List.isPrefixOf]

theorem splitFirst_at_end (x : List Char)
    (h : hasSubB bt3 (x ++ [btChar, btChar]) = false) :
    splitFirst bt3 (x ++ bt3) = some (x, []) := by
  induction x with
  | nil => decide
  | cons c x ih =>
    rw [List.cons_append] at h
    obtain ⟨hpref, hrest⟩ := hasSubB_cons_false bt3 c (x ++ [btChar, btChar]) h
    have hpref3 : bt3.isPrefixOf (c :: (x ++ bt3)) = false := by
      rw [isPrefixOf_bt3_swap]; exact hpref
    rw [List.cons_append]
    rw [show splitFirst bt3 (c :: (x ++ bt3)) =
        (match splitFirst bt3 (x ++ bt3) with
         | some (a, b) => some (c :: a, b)
         | none => none) from by simp [splitFirst, hpref3]]
    rw [ih hrest]

theorem no_bt3_body_tail (body : List Char) (h : hasSubB bt3 body = false) :
    hasSubB bt3 (body ++ ['\n', btChar, btChar]) = false := by
  induction body with
  | nil => decide
  | cons c body ih =>
    obtain ⟨hpref, hrest⟩ := hasSubB_cons_false bt3 c body h
    have h2 := ih hrest
    rw [List.cons_append, hasSubB_cons, h2]
    have hb : (btChar == '\n') = false := by decide
    have hpref2 : bt3.isPrefixOf (c :: (body ++ ['\n', btChar, btChar])) = false := by
      cases body with
      | nil => simp [bt3, List.isPrefixOf, hb]
      | cons d body2 =>
        cases body2 with
        | nil => simp [bt3, List.isPrefixOf, hb]
        | cons e body3 =>
          have heq : bt3.isPrefixOf (c :: d :: e :: (body3 ++ ['\n', btChar, btChar])) =
              bt3.isPrefixOf (c :: d :: e :: body3) := by
            simp [bt3, List.isPrefixOf]
          simpa [heq] using hpref
    simp [hpref2]

theorem no_bt3_wrapped (body : List Char) (h : hasSubB bt3 body = false) :
    hasSubB bt3 ('\n' :: (body ++ ['\n', btChar, btChar])) = false := by
  rw [hasSubB_cons, no_bt3_body_tail body h]
  have hb : (btChar == '\n') = false := by decide
  simp [bt3, List.isPrefixOf, hb]

theorem subFencedF_nil (n : Nat) : subFencedF n [] = [] := by
  cases n <;> rfl

/-- A file consisting only of a fenced code block reduces to nothing at the
first stripping step. -/
theorem subFenced_code_only (body : List Char) (h : hasSubB bt3 body = false) :
    subFenced (bt3 ++ '\n' :: (body ++ '\n' :: bt3)) = [] := by
  have hshape : bt3 ++ '\n' :: (body ++ '\n' :: bt3) =
      btChar :: (btChar :: btChar :: '\n' :: (body ++ '\n' :: bt3)) := by
    simp [bt3]
  have hlen : (bt3 ++ '\n' :: (body ++ '\n' :: bt3)).length = body.length + 8 := by
    simp [bt3]
  have hpref : bt3.isPrefixOf
      (btChar :: btChar :: btChar :: '\n' :: (body ++ '\n' :: bt3)) = true := by
    simp [bt3, List.isPrefixOf]
  have hdrop : (btChar :: btChar :: '\n' :: (body ++ '\n' :: bt3)).drop 2 =
      ('\n' :: (body ++ ['\n'])) ++ bt3 := by
    simp [bt3]
  have hsplit : splitFirst bt3 (('\n' :: (body ++ ['\n'])) ++ bt3) =
      some ('\n' :: (body ++ ['\n']), []) := by
    apply splitFirst_at_end
    have hg : ('\n' :: (body ++ ['\n'])) ++ [btChar, btChar] =
        '\n' :: (body ++ ['\n', btChar, btChar]) := by simp
    rw [hg]
    exact no_bt3_wrapped body h
  rw [subFenced, hlen, hshape]
  have hstep : subFencedF (body.length + 8) (btChar :: (btChar :: btChar :: '\n' ::
      (body ++ '\n' :: bt3))) = subFencedF (body.length + 7) [] := by
    have : body.length + 8 = (body.length + 7) + 1 := by omega
    rw [this]
    simp only [subFencedF, hpref, if_true, hdrop, hsplit]
  rw [hstep, subFencedF_nil]

/-- C4: word counts are invariant under markup that is fully stripped:
`**bold**`, `*bold*`, `__bold__`, `_bold_` and a link with text `bold` all
count exactly as the bare word `bold`; and every file consisting only of a
fenced code block (no prose) counts zero words. -/
theorem estimator_markup_invariance :
    count_words_in_markdown ("**bold**".data) = count_words_in_markdown ("bold".data) ∧
    count_words_in_markdown ("*bold*".data) = count_words_in_markdown ("bold".data) ∧
    count_words_in_markdown ("__bold__".data) = count_words_in_markdown ("bold".data) ∧
    count_words_in_markdown ("_bold_".data) = count_words_in_markdown ("bold".data) ∧
    count_words_in_markdown ("[bold](http://x)".data) = count_words_in_markdown ("bold".data) ∧
    (∀ body : List Char, hasSubB bt3 body = false →
      count_words_in_markdown (bt3 ++ '\n' :: (body ++ '\n' :: bt3)) = 0) := by
  refine ⟨by decide, by decide, by decide, by decide, by decide, ?_⟩
  intro body h
  rw [count_words_in_markdown, subFenced_code_only body h]
  rfl

theorem estimator_markup_invariance_witness :
    hasSubB bt3 ("code line".data) = false ∧
    count_words_in_markdown (bt3 ++ '\n' :: ("code line".data ++ '\n' :: bt3)) = 0 :=
  ⟨by decide, estimator_markup_invariance.2.2.2.2.2 ("code line".data) (by decide)⟩

/-- C7: front-matter stripping applies only to a block anchored at the very
start of the content: any content with one or more leading blank lines is
left untouched by the front-matter step, and the delimiters and keys of
such a block are counted as prose words. -/
theorem estimator_front_matter_anchored :
    (∀ (pre block : List Char), pre ≠ [] → (∀ c ∈ pre, c = '\n') →
      subFront (pre ++ block) = pre ++ block) ∧
    count_words_in_markdown ("\n---\ntitle: hello\n---\n".data) = 4 := by
  refine ⟨?_, by decide⟩
  intro pre block hne hall
  cases pre with
  | nil => exact absurd rfl hne
  | cons c pre2 =>
    have hc : c = '\n' := hall c (List.mem_cons_self c pre2)
    subst hc
    have hp : fmOpen.isPrefixOf ('\n' :: (pre2 ++ block)) = false := by
      have e : fmOpen = ['-', '-', '-', '\n'] := rfl
      have hne2 : ('-' == '\n') = false := by decide
      rw [e]
      simp [List.isPrefixOf, hne2]
    rw [List.cons_append]
    simp [subFront, hp]

theorem estimator_front_matter_anchored_witness :
    (['\n'] : List Char) ≠ [] ∧ (∀ c ∈ (['\n'] : List Char), c = '\n') ∧
    subFront (['\n'] ++ "---\na\n---\n".data) = ['\n'] ++ "---\na\n---\n".data :=
  ⟨by decide, by decide,
   estimator_front_matter_anchored.1 ['\n'] ("---\na\n---\n".data) (by decide) (by decide)⟩

theorem cmpNat_eq_iff (a b : Nat) : cmpNat a b = .eq ↔ a = b := by
  unfold cmpNat
  split
  · exact iff_of_false (by decide) (by omega)
  · split
    · exact iff_of_false (by decide) (by omega)
    · exact iff_of_true rfl (by omega)

theorem cmpNat_lt_iff (a b : Nat) : cmpNat a b = .lt ↔ a < b := by
  unfold cmpNat
  split
  · exact iff_of_true rfl (by assumption)
  · split
    · exact iff_of_false (by decide) (by omega)
    · exact iff_of_false (by decide) (by omega)

theorem cmpNat_swap (a b : Nat) : (cmpNat a b).swap = cmpNat b a := by
  unfold cmpNat
  by_cases h1 : a < b
  · have h2 : ¬ b < a := by omega
    simp [h1, h2, Ordering.swap]
  · by_cases h2 : b < a
    · simp [h1, h2, Ordering.swap]
    · simp [h1, h2, Ordering.swap]

theorem cmpChar_eq_iff (a b : Char) : cmpChar a b = .eq ↔ a = b := by
  unfold cmpChar
  rw [cmpNat_eq_iff]
  constructor
  · intro h
    have ha := Char.ofNat_toNat a
    rw [← ha, h, Char.ofNat_toNat]
  · intro h; rw [h]

theorem cmpChar_swap (a b : Char) : (cmpChar a b).swap = cmpChar b a := cmpNat_swap _ _

theorem cmpChar_lt_trans (a b c : Char) :
    cmpChar a b = .lt → cmpChar b c = .lt → cmpChar a c = .lt := by
  unfold cmpChar
  rw [cmpNat_lt_iff, cmpNat_lt_iff, cmpNat_lt_iff]
  omega

theorem cmpLex_eq_iff (f : α → α → Ordering) (hf : ∀ a b, f a b = .eq ↔ a = b) :
    ∀ x y, cmpLex f x y = .eq ↔ x = y := by
  intro x
  induction x with
  | nil => intro y; cases y <;> simp [cmpLex]
  | cons a as ih =>
    intro y
    cases y with
    | nil => simp [cmpLex]
    | cons b bs =>
      cases hab : f a b with
      | eq =>
        have hab2 : a = b := (hf a b).mp hab
        subst hab2
        simp [cmpLex, hab, ih bs]
      | lt =>
        refine iff_of_false (by simp [cmpLex, hab]) ?_
        intro hh
        injection hh with h1 h2
        rw [h1] at hab
        rw [(hf b b).mpr rfl] at hab
        exact absurd hab (by decide)
      | gt =>
        refine iff_of_false (by simp [cmpLex, hab]) ?_
        intro hh
        injection hh with h1 h2
        rw [h1] at hab
        rw [(hf b b).mpr rfl] at hab
        exact absurd hab (by decide)

theorem cmpLex_swap (f : α → α → Ordering) (hf : ∀ a b, (f a b).swap = f b a) :
    ∀ x y, (cmpLex f x y).swap = cmpLex f y x := by
  intro x
  induction x with
  | nil => intro y; cases y <;> rfl
  | cons a as ih =>
    intro y
    cases y with
    | nil => rfl
    | cons b bs =>
      cases hab : f a b with
      | eq =>
        have hba : f b a = .eq := by rw [← hf a b, hab]; rfl
        simp [cmpLex, hab, hba, ih bs]
      | lt =>
        have hba : f b a = .gt := by rw [← hf a b, hab]; rfl
        simp [cmpLex, hab, hba, Ordering.swap]
      | gt =>
        have hba : f b a = .lt := by rw [← hf a b, hab]; rfl
        simp [cmpLex, hab, hba, Ordering.swap]

theorem cmpLex_lt_trans (f : α → α → Ordering) (hfeq : ∀ a b, f a b = .eq ↔ a = b)
    (hflt : ∀ a b c, f a b = .lt → f b c = .lt → f a c = .lt) :
    ∀ x y z, cmpLex f x y = .lt → cmpLex f y z = .lt → cmpLex f x z = .lt := by
  intro x
  induction x with
  | nil =>
    intro y z h1 h2
    cases z with
    | nil =>
      cases y with
      | nil => exact absurd h2 (by simp [cmpLex])
      | cons b bs => exact absurd h2 (by simp [cmpLex])
    | cons c cs => simp [cmpLex]
  | cons a as ih =>
    intro y z h1 h2
    cases y with
    | nil => exact absurd h1 (by simp [cmpLex])
    | cons b bs =>
      cases z with
      | nil => exact absurd h2 (by simp [cmpLex])
      | cons c cs =>
        cases hab : f a b with
        | gt => rw [show cmpLex f (a :: as) (b :: bs) = .gt from by simp [cmpLex, hab]] at h1
                exact absurd h1 (by decide)
        | lt =>
          cases hbc : f b c with
          | gt => rw [show cmpLex f (b :: bs) (c :: cs) = .gt from by simp [cmpLex, hbc]] at h2
                  exact absurd h2 (by decide)
          | eq =>
            have hb2 : b = c := (hfeq b c).mp hbc
            subst hb2
            simp [cmpLex, hab]
          | lt =>
            have hac := hflt a b c hab hbc
            simp [cmpLex, hac]
        | eq =>
          have hab2 : a = b := (hfeq a b).mp hab
          subst hab2
          have faa : f a a = .eq := (hfeq a a).mpr rfl
          rw [show cmpLex f (a :: as) (a :: bs) = cmpLex f as bs from by simp [cmpLex, faa]] at h1
          cases hac : f a c with
          | gt => rw [show cmpLex f (a :: bs) (c :: cs) = .gt from by simp [cmpLex, hac]] at h2
                  exact absurd h2 (by decide)
          | lt => simp [cmpLex, hac]
          | eq =>
            have hac2 : a = c := (hfeq a c).mp hac
            subst hac2
            rw [show cmpLex f (a :: bs) (a :: cs) = cmpLex f bs cs from by simp [cmpLex, faa]] at h2
            simp [cmpLex, faa]
            exact ih bs cs h1 h2

theorem cmpElemT_eq_iff (x y : Sum (List Char) Nat) : cmpElemT x y = .eq ↔ x = y := by
  cases x with
  | inl a =>
    cases y with
    | inl b => simpa [cmpElemT, cmpStr] using cmpLex_eq_iff cmpChar cmpChar_eq_iff a b
    | inr b => simp [cmpElemT]
  | inr a =>
    cases y with
    | inl b => simp [cmpElemT]
    | inr b => simpa [cmpElemT] using cmpNat_eq_iff a b

theorem cmpElemT_swap (x y : Sum (List Char) Nat) : (cmpElemT x y).swap = cmpElemT y x := by
  cases x with
  | inl a =>
    cases y with
    | inl b => simpa [cmpElemT, cmpStr] using cmpLex_swap cmpChar cmpChar_swap a b
    | inr b => rfl
  | inr a =>
    cases y with
    | inl b => rfl
    | inr b => simpa [cmpElemT] using cmpNat_swap a b

theorem cmpElemT_lt_trans (x y z : Sum (List Char) Nat) :
    cmpElemT x y = .lt → cmpElemT y z = .lt → cmpElemT x z = .lt := by
  cases x with
  | inl a =>
    cases y with
    | inl b =>
      cases z with
      | inl c =>
        intro h1 h2
        exact cmpLex_lt_trans cmpChar cmpChar_eq_iff cmpChar_lt_trans a b c h1 h2
      | inr c => intro _ _; rfl
    | inr b =>
      cases z with
      | inl c => intro _ h2; exact absurd h2 (by simp [cmpElemT])
      | inr c => intro _ _; rfl
  | inr a =>
    cases y with
    | inl b => intro h1; exact absurd h1 (by simp [cmpElemT])
    | inr b =>
      cases z with
      | inl c => intro _ h2; exact absurd h2 (by simp [cmpElemT])
      | inr c =>
        intro h1 h2
        simp only [cmpElemT] at h1 h2 ⊢
        rw [cmpNat_lt_iff] at h1 h2 ⊢
        omega

theorem cmpKeyT_eq_iff (x y : List (Sum (List Char) Nat)) : cmpKeyT x y = .eq ↔ x = y :=
  cmpLex_eq_iff cmpElemT cmpElemT_eq_iff x y

theorem cmpKeyT_swap (x y : List (Sum (List Char) Nat)) : (cmpKeyT x y).swap = cmpKeyT y x :=
  cmpLex_swap cmpElemT cmpElemT_swap x y

theorem cmpKeyT_lt_trans (x y z : List (Sum (List Char) Nat)) :
    cmpKeyT x y = .lt → cmpKeyT y z = .lt → cmpKeyT x z = .lt :=
  cmpLex_lt_trans cmpElemT cmpElemT_eq_iff cmpElemT_lt_trans x y z

instance : IsTotal (List Char) keyLeR where
  total a b := by
    unfold keyLeR keyLe
    cases h : cmpKeyT (natural_sort_key a) (natural_sort_key b) with
    | lt => left; rfl
    | eq => left; rfl
    | gt =>
      right
      have h2 : cmpKeyT (natural_sort_key b) (natural_sort_key a) = .lt := by
        rw [← cmpKeyT_swap, h]; rfl
      rw [h2]

instance : IsTrans (List Char) keyLeR where
  trans a b c h1 h2 := by
    unfold keyLeR keyLe at h1 h2 ⊢
    cases hab : cmpKeyT (natural_sort_key a) (natural_sort_key b) with
    | gt => rw [hab] at h1; exact absurd h1 (by decide)
    | eq =>
      have he : natural_sort_key a = natural_sort_key b := (cmpKeyT_eq_iff _ _).mp hab
      rw [he]
      exact h2
    | lt =>
      cases hbc : cmpKeyT (natural_sort_key b) (natural_sort_key c) with
      | gt => rw [hbc] at h2; exact absurd h2 (by decide)
      | eq =>
        have he : natural_sort_key b = natural_sort_key c := (cmpKeyT_eq_iff _ _).mp hbc
        rw [← he, hab]
      | lt =>
        have hac := cmpKeyT_lt_trans _ _ _ hab hbc
        rw [hac]

/-- C2: `get_chapter_files` orders any list of filenames by the composite
natural-sort key (digit runs as integers, other runs lowercased, compared
element-wise): the result is a permutation of the input sorted by the key
relation, and in particular `ch1.md, ch2.md, ch10.md` sort in that order and
not lexicographically as `ch1, ch10, ch2`. -/
theorem renderer_natural_sort (files : List (List Char)) :
    (get_chapter_files files).Perm files ∧
    List.Sorted keyLeR (get_chapter_files files) ∧
    get_chapter_files ["ch1.md".data, "ch2.md".data, "ch10.md".data] =
      ["ch1.md".data, "ch2.md".data, "ch10.md".data] ∧
    get_chapter_files ["ch10.md".data, "ch1.md".data, "ch2.md".data] =
      ["ch1.md".data, "ch2.md".data, "ch10.md".data] ∧
    get_chapter_files ["ch1.md".data, "ch2.md".data, "ch10.md".data] ≠
      ["ch1.md".data, "ch10.md".data, "ch2.md".data] :=
  ⟨List.perm_insertionSort keyLeR files, List.sorted_insertionSort keyLeR files,
   by decide, by decide, by decide⟩

theorem dropWhile_head_false (p : α → Bool) (l : List α) (x : α) (xs : List α)
    (h : l.dropWhile p = x :: xs) : p x = false := by
  induction l with
  | nil => simp [List.dropWhile] at h
  | cons a l ih =>
    rw [List.dropWhile_cons] at h
    split at h
    · exact ih h
    · rename_i hpa
      injection h with h1 h2
      subst h1
      simpa using hpa

theorem length_dropWhile_le (p : α → Bool) (l : List α) :
    (l.dropWhile p).length ≤ l.length := by
  induction l with
  | nil => simp [List.dropWhile]
  | cons a l ih =>
    rw [List.dropWhile_cons]
    split
    · exact Nat.le_trans ih (by simp)
    · simp

theorem altChunks_splitDigitsF : ∀ (n : Nat) (cs : List Char), cs.length ≤ n →
    AltChunks false (splitDigitsF n cs) := by
  intro n
  induction n with
  | zero =>
    intro cs hlen
    have hcs : cs = [] := List.eq_nil_of_length_eq_zero (Nat.le_zero.mp hlen)
    subst hcs
    exact ⟨fun c hc => absurd hc (List.not_mem_nil c), trivial⟩
  | succ n ih =>
    intro cs hlen
    cases hr : cs.dropWhile (fun c => !c.isDigit) with
    | nil =>
      rw [show splitDigitsF (n + 1) cs = [cs.takeWhile (fun c => !c.isDigit)] from by
        simp [splitDigitsF, hr]]
      refine ⟨?_, trivial⟩
      intro c hc
      simpa using List.mem_takeWhile_imp hc
    | cons x xs =>
      have hx : (!x.isDigit) = false := dropWhile_head_false _ cs x xs hr
      have hxd : x.isDigit = true := by simpa using hx
      rw [show splitDigitsF (n + 1) cs =
          cs.takeWhile (fun c => !c.isDigit) :: (x :: xs).takeWhile Char.isDigit ::
            splitDigitsF n ((x :: xs).dropWhile Char.isDigit) from by
        simp [splitDigitsF, hr]]
      refine ⟨?_, ?_, ?_, ?_⟩
      · intro c hc
        simpa using List.mem_takeWhile_imp hc
      · rw [List.takeWhile_cons, if_pos hxd]
        simp
      · intro c hc
        exact List.mem_takeWhile_imp hc
      · apply ih
        have h1 : (x :: xs).length ≤ cs.length := by
          rw [← hr]; exact length_dropWhile_le _ _
        have h2 : ((x :: xs).dropWhile Char.isDigit).length ≤ xs.length := by
          rw [List.dropWhile_cons, if_pos hxd]
          exact length_dropWhile_le _ _
        simp only [List.length_cons] at h1
        omega

theorem altK_map : ∀ (ps : List (List Char)) (b : Bool),
    AltChunks b ps → AltK b (ps.map natKeyElem) := by
  intro ps
  induction ps with
  | nil => intro b _; cases b <;> trivial
  | cons p ps ih =>
    intro b hb
    cases b with
    | false =>
      obtain ⟨h1, h2⟩ := hb
      refine ⟨?_, ih true h2⟩
      unfold natKeyElem
      split
      · rename_i hcond
        exfalso
        obtain ⟨hne, hall⟩ := hcond
        cases p with
        | nil => exact hne rfl
        | cons c cr =>
          have hnd := h1 c (List.mem_cons_self c cr)
          have hd := List.all_eq_true.mp hall c (List.mem_cons_self c cr)
          rw [hnd] at hd
          exact absurd hd (by decide)
      · exact ⟨_, rfl⟩
    | true =>
      obtain ⟨hne, hall, h2⟩ := hb
      refine ⟨?_, ih false h2⟩
      unfold natKeyElem
      split
      · exact ⟨_, rfl⟩
      · rename_i hcond
        exfalso
        apply hcond
        refine ⟨hne, ?_⟩
        rw [List.all_eq_true]
        intro c hc
        exact hall c hc

theorem altK_key (name : List Char) : AltK false (natural_sort_key name) := by
  unfold natural_sort_key splitDigits
  exact altK_map _ false (altChunks_splitDigitsF _ _ (le_refl _))

theorem cmpKeyQ_ne_none : ∀ (xs ys : List (Sum (List Char) Nat)) (b : Bool),
    AltK b xs → AltK b ys → cmpKeyQ xs ys ≠ none := by
  intro xs
  induction xs with
  | nil =>
    intro ys b _ _
    cases ys <;> simp [cmpKeyQ]
  | cons x xs ih =>
    intro ys b hx hy
    cases ys with
    | nil => simp [cmpKeyQ]
    | cons y ys2 =>
      cases b with
      | false =>
        obtain ⟨⟨s, hs⟩, hx2⟩ := hx
        obtain ⟨⟨t, ht⟩, hy2⟩ := hy
        subst hs; subst ht
        cases ho : cmpStr s t with
        | eq =>
          rw [show cmpKeyQ (Sum.inl s :: xs) (Sum.inl t :: ys2) = cmpKeyQ xs ys2 from by
            simp [cmpKeyQ, cmpElemQ, ho]]
          exact ih ys2 true hx2 hy2
        | lt => simp [cmpKeyQ, cmpElemQ, ho]
        | gt => simp [cmpKeyQ, cmpElemQ, ho]
      | true =>
        obtain ⟨⟨s, hs⟩, hx2⟩ := hx
        obtain ⟨⟨t, ht⟩, hy2⟩ := hy
        subst hs; subst ht
        cases ho : cmpNat s t with
        | eq =>
          rw [show cmpKeyQ (Sum.inr s :: xs) (Sum.inr t :: ys2) = cmpKeyQ xs ys2 from by
            simp [cmpKeyQ, cmpElemQ, ho]]
          exact ih ys2 false hx2 hy2
        | lt => simp [cmpKeyQ, cmpElemQ, ho]
        | gt => simp [cmpKeyQ, cmpElemQ, ho]

theorem altK_get : ∀ (xs : List (Sum (List Char) Nat)) (b : Bool), AltK b xs →
    ∀ (i : Nat) (h : i < xs.length),
    ((i % 2 = 0 ∧ b = false) ∨ (i % 2 = 1 ∧ b = true) →
      ∃ s, xs.get ⟨i, h⟩ = Sum.inl s) ∧
    ((i % 2 = 1 ∧ b = false) ∨ (i % 2 = 0 ∧ b = true) →
      ∃ k, xs.get ⟨i, h⟩ = Sum.inr k) := by
  intro xs
  induction xs with
  | nil => intro b _ i h; simp at h
  | cons x xs ih =>
    intro b hb i h
    cases i with
    | zero =>
      cases b with
      | false =>
        obtain ⟨⟨s, hs⟩, _⟩ := hb
        constructor
        · intro _; exact ⟨s, hs⟩
        · intro hcase
          rcases hcase with ⟨h1, _⟩ | ⟨_, h2⟩
          · omega
          · exact absurd h2 (by decide)
      | true =>
        obtain ⟨⟨k, hk⟩, _⟩ := hb
        constructor
        · intro hcase
          rcases hcase with ⟨_, h2⟩ | ⟨h1, _⟩
          · exact absurd h2 (by decide)
          · omega
        · intro _; exact ⟨k, hk⟩
    | succ j =>
      have h2 : j < xs.length := by
        simp only [List.length_cons] at h
        omega
      have hb2 : AltK (!b) xs := by
        cases b with
        | false => exact hb.2
        | true => exact hb.2
      have hrec := ih (!b) hb2 j h2
      constructor
      · intro hcase
        rcases hcase with ⟨h1, hb1⟩ | ⟨h1, hb1⟩
        · subst hb1
          have hj : j % 2 = 1 := by omega
          exact hrec.1 (Or.inr ⟨hj, rfl⟩)
        · subst hb1
          have hj : j % 2 = 0 := by omega
          exact hrec.1 (Or.inl ⟨hj, rfl⟩)
      · intro hcase
        rcases hcase with ⟨h1, hb1⟩ | ⟨h1, hb1⟩
        · subst hb1
          have hj : j % 2 = 0 := by omega
          exact hrec.2 (Or.inr ⟨hj, rfl⟩)
        · subst hb1
          have hj : j % 2 = 1 := by omega
          exact hrec.2 (Or.inl ⟨hj, rfl⟩)

/-- C10: the natural-sort key places string components at even indices and
integer components at odd indices for every filename, so comparing any two
keys never compares an integer with a string: key comparison (and hence
sorting) is always defined, never a `TypeError`. -/
theorem natural_sort_key_well_defined (a b : List Char) :
    (∀ (i : Nat) (h : i < (natural_sort_key a).length),
      (i % 2 = 0 → ∃ s, (natural_sort_key a).get ⟨i, h⟩ = Sum.inl s) ∧
      (i % 2 = 1 → ∃ k, (natural_sort_key a).get ⟨i, h⟩ = Sum.inr k)) ∧
    cmpKeyQ (natural_sort_key a) (natural_sort_key b) ≠ none := by
  refine ⟨?_, cmpKeyQ_ne_none _ _ false (altK_key a) (altK_key b)⟩
  intro i h
  have hg := altK_get (natural_sort_key a) false (altK_key a) i h
  exact ⟨fun hi => hg.1 (Or.inl ⟨hi, rfl⟩), fun hi => hg.2 (Or.inl ⟨hi, rfl⟩)⟩

theorem natural_sort_key_well_defined_witness :
    (0 % 2 = 0 → ∃ s, (natural_sort_key ("ch1.md".data)).get ⟨0, by decide⟩ = Sum.inl s) ∧
    cmpKeyQ (natural_sort_key ("ch1.md".data)) (natural_sort_key ("ch10.md".data)) ≠ none :=
  ⟨((natural_sort_key_well_defined ("ch1.md".data) ("ch10.md".data)).1 0 (by decide)).1,
   (natural_sort_key_well_defined ("ch1.md".data) ("ch10.md".data)).2⟩
